import Mathlib

/-!
Verification of the quotes widget (dynamic quote generator with server sync).

The definitions below are a shallow embedding of the sync-enabled revision of
`dom-manipulation/script.js`: the string normalisation helper, the merge engine
inside `syncQuotes`, the remote pull chain `fetchQuotesFromServer`, the JSON
import/export pair, and `loadQuotes`.  Browser side effects (DOM, alerts,
localStorage writes) are modelled by explicit inputs and outputs; `Date.now()`
and `makeId()` become explicit parameters.
-/

namespace QuoteApp


/-! ## Strings: JS `trim`, `toLowerCase`, and `normalize`

`normalize = (s) => (s || '').trim().toLowerCase()` (script.js line 439).
JS strings are modelled by Lean `String`; `trim` drops leading and trailing
whitespace, `toLowerCase` lowercases each character (basic-latin model). -/

/-- Drop leading and trailing whitespace characters from a list of characters,
as JS `String.prototype.trim` does. -/
def trimList (l : List Char) : List Char :=
  ((l.dropWhile Char.isWhitespace).reverse.dropWhile Char.isWhitespace).reverse

/-- JS `s.trim()`. -/
def jsTrim (s : String) : String := ⟨trimList s.data⟩

/-- JS `s.toLowerCase()` (basic-latin fragment). -/
def jsToLower (s : String) : String := ⟨s.data.map Char.toLower⟩

/-- `normalize` from script.js line 439: `(s || '').trim().toLowerCase()`. -/
def normalize (s : String) : String := jsToLower (jsTrim s)

/-- Drop trailing elements satisfying `p` (the reverse/dropWhile/reverse idiom). -/
def rdrop (p : α → Bool) (l : List α) : List α :=
  (l.reverse.dropWhile p).reverse

/-! ## Data model

`Quote` mirrors `{id, text, category, updatedAt, source}` (script.js line 379);
`source` is `'local' | 'server'` (the spec's origin tag). -/

inductive Source where
  | local_ : Source
  | server : Source
deriving DecidableEq, Repr

structure Quote where
  id : String
  text : String
  category : String
  updatedAt : Nat
  source : Source
deriving DecidableEq, Repr

/-- `{key, local, server}` conflict record (script.js line 869). -/
structure Conflict where
  key : String
  local_ : Quote
  server : Quote
deriving DecidableEq, Repr

/-! ## Merge engine (`syncQuotes` steps 3, script.js lines 844-880) -/

/-- `keyOf = (q) => normalize(q.text)` (line 845): merge identity is the normalized text. -/
def keyOf (q : Quote) : String := normalize q.text

/-- JS `Map.set`: overwrite in place when the key is present (keeping its original
insertion position), otherwise append at the end. -/
def mapSet (m : List (String × Quote)) (k : String) (v : Quote) : List (String × Quote) :=
  if m.any (fun p => p.1 == k) then
    m.map (fun p => if p.1 == k then (k, v) else p)
  else
    m ++ [(k, v)]

/-- JS `Map.get`. -/
def mapGet (m : List (String × Quote)) (k : String) : Option Quote :=
  (m.find? (fun p => p.1 == k)).map (fun p => p.2)

/-- Keys of a map, in insertion order. -/
def keysOf (m : List (String × Quote)) : List String := m.map (fun p => p.1)

/-- Build the key-to-item map of one side (lines 847-851): the last item with a
given key wins within that side. -/
def buildMap (qs : List Quote) : List (String × Quote) :=
  qs.foldl (fun m q => mapSet m (keyOf q) q) []

/-- `new Set([...localMap.keys(), ...serverMap.keys()])` (line 853): local keys in
insertion order, then the server keys not already present. -/
def allKeys (lm sm : List (String × Quote)) : List String :=
  keysOf lm ++ (keysOf sm).filter (fun k => !(keysOf lm).contains k)

/-- `differs = !sameCategory || !sameText` (lines 864-866). -/
def differsB (l s : Quote) : Bool :=
  !(normalize l.category == normalize s.category) || !(normalize l.text == normalize s.text)

/-- The merged entry contributed by one key of the union (lines 859-879). -/
def mergeItem (lm sm : List (String × Quote)) (k : String) : Option Quote :=
  match mapGet lm k, mapGet sm k with
  | some l, some s =>
    if differsB l s then
      some { s with source := Source.server, updatedAt := max l.updatedAt s.updatedAt }
    else
      some { s with updatedAt := max l.updatedAt s.updatedAt, source := Source.server }
  | none, some s => some { s with source := Source.server }
  | some l, none => some l
  | none, none => none

/-- The conflict contributed by one key of the union (lines 867-869). -/
def conflictAt (lm sm : List (String × Quote)) (k : String) : Option Conflict :=
  match mapGet lm k, mapGet sm k with
  | some l, some s => if differsB l s then some ⟨k, l, s⟩ else none
  | _, _ => none

/-- The pure merge computation of `syncQuotes` (lines 844-880): returns the merged
list and the conflict list, both in union-key iteration order. -/
def syncMerge (quotes serverQuotes : List Quote) : List Quote × List Conflict :=
  let lm := buildMap quotes
  let sm := buildMap serverQuotes
  let ks := allKeys lm sm
  (ks.filterMap (mergeItem lm sm), ks.filterMap (conflictAt lm sm))

def exLocal : Quote := ⟨"l1", "Be kind", "Life", 5, Source.local_⟩

def exRemote : Quote := ⟨"s1", "be kind", "Wisdom", 9, Source.server⟩

/-! ## Remote pull chain (`fetchQuotesFromServer`, script.js lines 485-510) -/

/-- A raw seed record `{text, category}` as stored in the fallback snapshot. -/
structure SeedQuote where
  text : String
  category : String
deriving DecidableEq, Repr

/-- The fixed default seed of the fallback "server" store (lines 416-422). -/
def serverQuoteData : List SeedQuote :=
  [⟨"The greatest glory in living lies not in never falling, but in rising every time we fall.",
    "Inspiration"⟩,
   ⟨"The way to get started is to quit talking and begin doing.", "Motivation"⟩,
   ⟨"Your time is limited, don\x27t waste it living someone else\x27s life.", "Life"⟩,
   ⟨"If life were predictable it would cease to be life, and be without flavor.", "Life"⟩,
   ⟨"If you look at what you have in life, you\x27ll always have more.", "Gratitude"⟩]

/-- One network source attempt, modelled by its outcome: `none` when the fetch,
status check or JSON parse threw; `some data` with the transformed item list
otherwise. The attempt yields a result when the text-filtered list is non-empty
(lines 489-493). -/
def attemptYield (attempt : Option (List Quote)) : Option (List Quote) :=
  match attempt with
  | none => none
  | some data =>
    if (data.filter (fun q => q.text != "")).length != 0
    then some (data.filter (fun q => q.text != ""))
    else none

/-- The `for (const src of SERVER_SOURCES)` loop (lines 487-497): first source
whose attempt yields a result wins. -/
def tryTransformed : List (Option (List Quote)) → Option (List Quote)
  | [] => none
  | attempt :: rest =>
    match attemptYield attempt with
    | some qs => some qs
    | none => tryTransformed rest

/-- Stamp the fallback snapshot entries with ids and timestamps (lines 503-509). -/
def stampFallback (t : Nat) : Nat → List SeedQuote → List Quote
  | _, [] => []
  | i, q :: rest =>
    ⟨"server-fallback-" ++ toString i, q.text, q.category, t, Source.server⟩ ::
      stampFallback t (i + 1) rest

def fallbackQuotes (base : List SeedQuote) (t : Nat) : List Quote :=
  stampFallback t 0 base

/-- `fetchQuotesFromServer` (lines 485-510): try the web sources in order; when
none yields, stamp and return the locally persisted snapshot (`storedServerData`,
already parsed) or the fixed default seed. `t` models `Date.now()`. -/
def fetchQuotesFromServer (attempts : List (Option (List Quote)))
    (storedServerData : Option (List SeedQuote)) (t : Nat) : List Quote :=
  match tryTransformed attempts with
  | some qs => qs
  | none =>
    match storedServerData with
    | some base => fallbackQuotes base t
    | none => fallbackQuotes serverQuoteData t

/-! ## JSON import/export (lines 645-694) and `loadQuotes` (lines 453-482) -/

/-- A parsed JSON record with possibly-absent fields; `none` models an absent
field (or, for `text`, a non-string value). -/
structure JsonRec where
  id : Option String
  text : Option String
  category : Option String
  updatedAt : Option Nat
  source : Option String
deriving DecidableEq, Repr

/-- `q.id || makeId()`: keep a truthy (non-empty) id, else the fresh one. -/
def idDefault (i : Option String) (fresh : String) : String :=
  match i with
  | some s => if s != "" then s else fresh
  | none => fresh

/-- `String(q.category || 'General')`: empty or absent categories default. -/
def categoryDefault (c : Option String) : String :=
  match c with
  | some s => if s != "" then s else "General"
  | none => "General"

/-- `Number(q.updatedAt || now())`: zero or absent timestamps default to now. -/
def updatedAtDefault (u : Option Nat) (t : Nat) : Nat :=
  match u with
  | some n => if n != 0 then n else t
  | none => t

/-- `q.source === 'server' ? 'server' : 'local'`. -/
def sourceDefault (s : Option String) : Source :=
  if s == some "server" then Source.server else Source.local_

/-- The import filter (line 670): `q && typeof q.text === 'string' && q.text.trim()`. -/
def importKeep (r : JsonRec) : Bool :=
  match r.text with
  | some s => jsTrim s != ""
  | none => false

/-- The shape mapping shared by `importFromJsonFile` (lines 671-677) and
`loadQuotes` (lines 459-465); `gen i` models the `makeId()` call for the i-th
record. -/
def importShape (gen : Nat → String) (t : Nat) (i : Nat) (r : JsonRec) : Quote :=
  ⟨idDefault r.id (gen i), r.text.getD "", categoryDefault r.category,
   updatedAtDefault r.updatedAt t, sourceDefault r.source⟩

/-- `key = (q) => normalize(q.text) + '::' + normalize(q.category)` (line 666). -/
def importKey (q : Quote) : String := normalize q.text ++ "::" ++ normalize q.category

/-- Shape a record list in order, threading the id generator index. -/
def shapeAll (gen : Nat → String) (t : Nat) : Nat → List JsonRec → List Quote
  | _, [] => []
  | i, r :: rest => importShape gen t i r :: shapeAll gen t (i + 1) rest

/-- `importFromJsonFile` state transition (lines 658-694): keep records with
string, non-blank text; shape them; drop those whose normalized text+category
key already exists in the store; append the remainder (no change when every
record is a duplicate). -/
def importQuotes (gen : Nat → String) (t : Nat) (current : List Quote)
    (imported : List JsonRec) : List Quote :=
  let existingKeys := current.map importKey
  let cleaned := (shapeAll gen t 0 (imported.filter importKeep)).filter
    (fun q => !existingKeys.contains (importKey q))
  if cleaned.length == 0 then current else current ++ cleaned

/-- `exportQuotesToJson` (lines 645-656): the exported JSON document parses back
to one record per item, every field present. -/
def exportQuotesToJson (qs : List Quote) : List JsonRec :=
  qs.map (fun q => ⟨some q.id, some q.text, some q.category, some q.updatedAt,
    some (match q.source with | Source.server => "server" | Source.local_ => "local")⟩)

/-- The default quotes seeded by `loadQuotes` when the store is empty
(lines 473-479). -/
def defaultQuotes (gen : Nat → String) (t : Nat) : List Quote :=
  [⟨gen 0, "The only way to do great work is to love what you do.", "Inspiration", t,
    Source.local_⟩,
   ⟨gen 1, "Strive not to be a success, but rather to be of value.", "Motivation", t,
    Source.local_⟩,
   ⟨gen 2, "The future belongs to those who believe in the beauty of their dreams.", "Dreams", t,
    Source.local_⟩,
   ⟨gen 3, "The best time to plant a tree was 20 years ago. The second best time is now.",
    "Motivation", t, Source.local_⟩,
   ⟨gen 4, "If you are not willing to risk the usual, you will have to settle for the ordinary.",
    "Risk", t, Source.local_⟩]

/-- `loadQuotes` (lines 453-482): `stored = none` models an absent key,
`some none` an unparsable value (`JSON.parse` or the shape map threw, and the
catch left `[]`), `some (some recs)` a parsed record array. An empty result is
reseeded with the defaults. -/
def loadQuotes (gen : Nat → String) (t : Nat)
    (stored : Option (Option (List JsonRec))) : List Quote :=
  let parsed : List Quote :=
    match stored with
    | none => []
    | some none => []
    | some (some recs) => shapeAll gen t 0 recs
  if parsed.length == 0 then defaultQuotes gen t else parsed

/-- The normalized text+category key of a kept import record, as the code
computes it on the shaped record. -/
def recKey (r : JsonRec) : String :=
  normalize (r.text.getD "") ++ "::" ++ normalize (categoryDefault r.category)

/-! ### Character-level lemmas -/

theorem char_toNat_ofNat {n : Nat} (h : n.isValidChar) : (Char.ofNat n).toNat = n := by
  rw [Char.ofNat, dif_pos h]
  simp [Char.ofNatAux, Char.toNat, UInt32.toNat]

theorem toLower_toNat_of_upper {c : Char} (h1 : 65 ≤ c.toNat) (h2 : c.toNat ≤ 90) :
    c.toLower.toNat = c.toNat + 32 := by
  have hv : (c.toNat + 32).isValidChar := Or.inl (by omega)
  rw [Char.toLower, if_pos ⟨h1, h2⟩]
  exact char_toNat_ofNat hv

theorem toLower_eq_self_of_not_upper {c : Char} (h : ¬(65 ≤ c.toNat ∧ c.toNat ≤ 90)) :
    c.toLower = c := by
  rw [Char.toLower, if_neg h]

theorem toLower_idem (c : Char) : c.toLower.toLower = c.toLower := by
  by_cases h : 65 ≤ c.toNat ∧ c.toNat ≤ 90
  · have ht : c.toLower.toNat = c.toNat + 32 := toLower_toNat_of_upper h.1 h.2
    apply toLower_eq_self_of_not_upper
    omega
  · rw [toLower_eq_self_of_not_upper h, toLower_eq_self_of_not_upper h]

theorem char_ne_of_toNat_ne {a b : Char} (h : a.toNat ≠ b.toNat) : a ≠ b :=
  fun e => h (e ▸ rfl)

theorem isWhitespace_toLower (c : Char) : c.toLower.isWhitespace = c.isWhitespace := by
  by_cases h : 65 ≤ c.toNat ∧ c.toNat ≤ 90
  · have ht : c.toLower.toNat = c.toNat + 32 := toLower_toNat_of_upper h.1 h.2
    have hws : ∀ d : Char, 65 ≤ d.toNat → d.isWhitespace = false := by
      intro d hd
      have h32 : d ≠ ' ' := char_ne_of_toNat_ne (by intro e; rw [e] at hd; simp at hd)
      have h9 : d ≠ '\t' := char_ne_of_toNat_ne (by intro e; rw [e] at hd; simp at hd)
      have h13 : d ≠ '\r' := char_ne_of_toNat_ne (by intro e; rw [e] at hd; simp at hd)
      have h10 : d ≠ '\n' := char_ne_of_toNat_ne (by intro e; rw [e] at hd; simp at hd)
      simp [Char.isWhitespace, h32, h9, h13, h10]
    rw [hws _ h.1, hws _ (by omega : 65 ≤ c.toLower.toNat)]
  · rw [toLower_eq_self_of_not_upper h]

/-! ### List-level trim lemmas -/

theorem dropWhile_idem (p : α → Bool) (l : List α) :
    (l.dropWhile p).dropWhile p = l.dropWhile p := by
  induction l with
  | nil => rfl
  | cons a t ih =>
    rw [List.dropWhile_cons]
    by_cases h : p a = true
    · simp only [h, if_true, ih]
    · simp only [h, if_false, List.dropWhile_cons]
      simp [h]

theorem head_dropWhile_false {p : α → Bool} {l : List α} {b : α} {u : List α}
    (h : l.dropWhile p = b :: u) : p b = false := by
  induction l with
  | nil => simp at h
  | cons a t ih =>
    rw [List.dropWhile_cons] at h
    by_cases ha : p a = true
    · rw [if_pos ha] at h
      exact ih h
    · rw [if_neg ha] at h
      cases h
      simpa using ha

theorem rdrop_rdrop (p : α → Bool) (l : List α) : rdrop p (rdrop p l) = rdrop p l := by
  simp [rdrop, dropWhile_idem]

theorem rdrop_head_cases (p : α → Bool) (a : α) (t : List α) :
    rdrop p (a :: t) = [] ∨ ∃ z, rdrop p (a :: t) = a :: z := by
  unfold rdrop
  rw [List.reverse_cons, List.dropWhile_append]
  by_cases he : (t.reverse.dropWhile p).isEmpty = true
  · rw [if_pos he, List.dropWhile_cons]
    by_cases hp : p a = true
    · rw [if_pos hp]
      left
      simp
    · rw [if_neg hp]
      right
      exact ⟨[], by simp⟩
  · rw [if_neg he]
    right
    exact ⟨(t.reverse.dropWhile p).reverse, by simp⟩

theorem trimList_eq_rdrop (l : List Char) :
    trimList l = rdrop Char.isWhitespace (l.dropWhile Char.isWhitespace) := by
  rfl

theorem dropWhile_trimList (l : List Char) :
    (trimList l).dropWhile Char.isWhitespace = trimList l := by
  rw [trimList_eq_rdrop]
  cases hd : l.dropWhile Char.isWhitespace with
  | nil => simp [rdrop]
  | cons b u =>
    have hb : Char.isWhitespace b = false := head_dropWhile_false hd
    rcases rdrop_head_cases Char.isWhitespace b u with h | ⟨z, h⟩
    · simp [h]
    · rw [h, List.dropWhile_cons]
      simp [hb]

theorem trimList_idem (l : List Char) : trimList (trimList l) = trimList l := by
  rw [trimList_eq_rdrop (trimList l), dropWhile_trimList]
  rw [trimList_eq_rdrop l, rdrop_rdrop]

theorem trimList_map_toLower (l : List Char) :
    trimList (l.map Char.toLower) = (trimList l).map Char.toLower := by
  have hp : Char.isWhitespace ∘ Char.toLower = Char.isWhitespace := by
    funext c
    exact isWhitespace_toLower c
  unfold trimList
  rw [List.dropWhile_map, hp, ← List.map_reverse, List.dropWhile_map, hp, ← List.map_reverse]

theorem map_toLower_idem (l : List Char) :
    (l.map Char.toLower).map Char.toLower = l.map Char.toLower := by
  rw [List.map_map]
  apply List.map_congr_left
  intro a _
  exact toLower_idem a

/-- C5: `normalize` is idempotent, and `normalize " Foo " = normalize "foo"` —
texts equal up to letter case and surrounding whitespace share a merge key. -/
theorem normalize_idem_and_insensitive :
    (∀ s : String, normalize (normalize s) = normalize s) ∧
    normalize " Foo " = normalize "foo" := by
  constructor
  · intro s
    have h : (trimList ((trimList s.data).map Char.toLower)).map Char.toLower
        = (trimList s.data).map Char.toLower := by
      rw [trimList_map_toLower, trimList_idem, map_toLower_idem]
    show String.mk ((trimList ((trimList s.data).map Char.toLower)).map Char.toLower) =
      String.mk ((trimList s.data).map Char.toLower)
    rw [h]
  · decide

/-! ### Map lemmas -/

theorem mem_mapSet {m : List (String × Quote)} {k : String} {v : Quote}
    {p : String × Quote} (hp : p ∈ mapSet m k v) : p = (k, v) ∨ p ∈ m := by
  unfold mapSet at hp
  by_cases hc : m.any (fun p => p.1 == k) = true
  · rw [if_pos hc] at hp
    obtain ⟨q, hq, hfq⟩ := List.mem_map.mp hp
    by_cases hqk : (q.1 == k) = true
    · rw [if_pos hqk] at hfq
      exact Or.inl hfq.symm
    · rw [if_neg hqk] at hfq
      exact Or.inr (hfq ▸ hq)
  · rw [if_neg hc] at hp
    rcases List.mem_append.mp hp with h | h
    · exact Or.inr h
    · exact Or.inl (List.mem_singleton.mp h)

theorem keysOf_mapSet_of_mem {m : List (String × Quote)} {k : String} {v : Quote}
    (h : m.any (fun p => p.1 == k) = true) : keysOf (mapSet m k v) = keysOf m := by
  unfold mapSet
  rw [if_pos h]
  unfold keysOf
  rw [List.map_map]
  apply List.map_congr_left
  intro p _
  by_cases hpk : (p.1 == k) = true
  · simp only [Function.comp_apply, if_pos hpk]
    exact (eq_of_beq hpk).symm
  · simp only [Function.comp_apply, if_neg hpk]

theorem keysOf_mapSet_of_not_mem {m : List (String × Quote)} {k : String} {v : Quote}
    (h : m.any (fun p => p.1 == k) = false) : keysOf (mapSet m k v) = keysOf m ++ [k] := by
  unfold mapSet
  rw [if_neg (by rw [h]; exact Bool.false_ne_true)]
  unfold keysOf
  rw [List.map_append]
  rfl

theorem contains_true_of_mem {l : List String} {a : String} (h : a ∈ l) :
    l.contains a = true :=
  List.elem_eq_true_of_mem h

theorem contains_false_of_not_mem {l : List String} {a : String} (h : a ∉ l) :
    l.contains a = false := by
  rw [Bool.eq_false_iff]
  intro hc
  exact h (List.elem_iff.mp hc)

theorem not_mem_keysOf_of_any_false {m : List (String × Quote)} {k : String}
    (h : m.any (fun p => p.1 == k) = false) : k ∉ keysOf m := by
  intro hk
  obtain ⟨p, hp, hpk⟩ := List.mem_map.mp hk
  exact absurd (by rw [hpk]; exact beq_self_eq_true k) (List.any_eq_false.mp h p hp)

theorem any_false_of_not_mem_keysOf {m : List (String × Quote)} {k : String}
    (h : k ∉ keysOf m) : m.any (fun p => p.1 == k) = false := by
  rw [List.any_eq_false]
  intro p hp
  simp only [beq_iff_eq]
  intro hpk
  exact h (List.mem_map.mpr ⟨p, hp, hpk⟩)

theorem buildMap_inv (qs : List Quote) :
    ∀ m : List (String × Quote), (keysOf m).Nodup → (∀ p ∈ m, keyOf p.2 = p.1) →
      (keysOf (qs.foldl (fun m q => mapSet m (keyOf q) q) m)).Nodup ∧
      (∀ p ∈ qs.foldl (fun m q => mapSet m (keyOf q) q) m, keyOf p.2 = p.1) := by
  induction qs with
  | nil => intro m h1 h2; exact ⟨h1, h2⟩
  | cons a t ih =>
    intro m h1 h2
    rw [List.foldl_cons]
    apply ih
    · by_cases hc : m.any (fun p => p.1 == keyOf a) = true
      · rw [keysOf_mapSet_of_mem hc]; exact h1
      · rw [keysOf_mapSet_of_not_mem (Bool.eq_false_iff.mpr hc)]
        rw [List.nodup_append]
        refine ⟨h1, List.nodup_singleton _, ?_⟩
        intro x hx hx1
        rw [List.mem_singleton.mp hx1] at hx
        exact not_mem_keysOf_of_any_false (Bool.eq_false_iff.mpr hc) hx
    · intro p hp
      rcases mem_mapSet hp with h | h
      · rw [h]
      · exact h2 p h

theorem buildMap_keys_nodup (qs : List Quote) : (keysOf (buildMap qs)).Nodup :=
  (buildMap_inv qs [] (by simp [keysOf]) (by simp)).1

theorem buildMap_mem_key (qs : List Quote) : ∀ p ∈ buildMap qs, keyOf p.2 = p.1 :=
  (buildMap_inv qs [] (by simp [keysOf]) (by simp)).2

theorem mapGet_some_mem {m : List (String × Quote)} {k : String} {v : Quote}
    (h : mapGet m k = some v) : (k, v) ∈ m := by
  unfold mapGet at h
  cases hf : m.find? (fun p => p.1 == k) with
  | none => rw [hf] at h; simp at h
  | some p =>
    rw [hf] at h
    have hb := List.find?_some hf
    simp only [beq_iff_eq] at hb
    have hp1 : p.1 = k := hb
    have hp2 : p.2 = v := by simpa using h
    have := List.mem_of_find?_eq_some hf
    rwa [← hp1, ← hp2, Prod.mk.eta]

theorem keyOf_of_mapGet {qs : List Quote} {k : String} {v : Quote}
    (h : mapGet (buildMap qs) k = some v) : keyOf v = k :=
  buildMap_mem_key qs (k, v) (mapGet_some_mem h)

theorem mem_keysOf_of_mapGet {m : List (String × Quote)} {k : String} {v : Quote}
    (h : mapGet m k = some v) : k ∈ keysOf m :=
  List.mem_map.mpr ⟨(k, v), mapGet_some_mem h, rfl⟩

theorem mapGet_eq_none_of_not_mem {m : List (String × Quote)} {k : String}
    (h : k ∉ keysOf m) : mapGet m k = none := by
  unfold mapGet
  rw [List.find?_eq_none.mpr]
  · rfl
  · intro p hp
    simp only [beq_iff_eq]
    intro hpk
    exact h (List.mem_map.mpr ⟨p, hp, hpk⟩)

theorem mapGet_isSome_of_mem_keysOf {m : List (String × Quote)} {k : String}
    (h : k ∈ keysOf m) : (mapGet m k).isSome := by
  unfold mapGet
  rw [Option.isSome_map', List.find?_isSome]
  obtain ⟨p, hp, hpk⟩ := List.mem_map.mp h
  exact ⟨p, hp, by rw [hpk]; exact beq_self_eq_true k⟩

theorem allKeys_nodup {lm sm : List (String × Quote)}
    (h1 : (keysOf lm).Nodup) (h2 : (keysOf sm).Nodup) : (allKeys lm sm).Nodup := by
  unfold allKeys
  rw [List.nodup_append]
  refine ⟨h1, h2.filter _, ?_⟩
  intro x hx hxf
  have hc := List.of_mem_filter hxf
  rw [Bool.not_eq_true'] at hc
  rw [contains_true_of_mem hx] at hc
  simp at hc

theorem mem_allKeys_left {lm sm : List (String × Quote)} {k : String}
    (h : k ∈ keysOf lm) : k ∈ allKeys lm sm :=
  List.mem_append.mpr (Or.inl h)

theorem mem_allKeys_right {lm sm : List (String × Quote)} {k : String}
    (h : k ∈ keysOf sm) : k ∈ allKeys lm sm := by
  by_cases hl : k ∈ keysOf lm
  · exact mem_allKeys_left hl
  · refine List.mem_append.mpr (Or.inr (List.mem_filter.mpr ⟨h, ?_⟩))
    rw [contains_false_of_not_mem hl]
    rfl

/-! ### filterMap helpers -/

theorem filterMap_eq_self_of_forall_some {α : Type} {f : α → Option α} :
    ∀ l : List α, (∀ a ∈ l, f a = some a) → l.filterMap f = l := by
  intro l
  induction l with
  | nil => intro _; rfl
  | cons a t ih =>
    intro h
    rw [List.filterMap_cons, h a (List.mem_cons_self a t),
      ih (fun b hb => h b (List.mem_cons.mpr (Or.inr hb)))]

theorem filterMap_eq_nil_of_forall_none {α β : Type} {f : α → Option β} :
    ∀ l : List α, (∀ a ∈ l, f a = none) → l.filterMap f = [] := by
  intro l
  induction l with
  | nil => intro _; rfl
  | cons a t ih =>
    intro h
    rw [List.filterMap_cons, h a (List.mem_cons_self a t),
      ih (fun b hb => h b (List.mem_cons.mpr (Or.inr hb)))]

/-- Filtering the output of a keyed `filterMap` over a duplicate-free key list
isolates the single contribution of one key. -/
theorem filterMap_filter_key {β : Type} (f : String → Option β) (g : β → String)
    (hkey : ∀ k q, f k = some q → g q = k) :
    ∀ ks : List String, ks.Nodup → ∀ k : String,
      (ks.filterMap f).filter (fun q => g q == k) =
        if k ∈ ks then (f k).toList else [] := by
  intro ks
  induction ks with
  | nil => intro _ k; simp
  | cons k' t ih =>
    intro hnd k
    have hk't : k' ∉ t := (List.nodup_cons.mp hnd).1
    have hndt : t.Nodup := (List.nodup_cons.mp hnd).2
    rw [List.filterMap_cons]
    cases hm : f k' with
    | none =>
      rw [ih hndt k]
      by_cases hkk : k = k'
      · subst hkk
        rw [if_neg hk't, if_pos (List.mem_cons_self k t), hm]
        rfl
      · by_cases hkt : k ∈ t
        · rw [if_pos hkt, if_pos (List.mem_cons.mpr (Or.inr hkt))]
        · rw [if_neg hkt,
            if_neg (fun hh => (List.mem_cons.mp hh).elim (fun h => absurd h hkk) hkt)]
    | some q =>
      have hgq : g q = k' := hkey k' q hm
      rw [List.filter_cons]
      by_cases hkk : k = k'
      · subst hkk
        have hbeq : (g q == k) = true := by rw [hgq]; exact beq_self_eq_true k
        rw [if_pos hbeq, ih hndt k, if_neg hk't, if_pos (List.mem_cons_self k t), hm]
        rfl
      · have hbeq : (g q == k) = false := by
          rw [beq_eq_false_iff_ne, hgq]
          exact Ne.symm hkk
        rw [if_neg (by rw [hbeq]; exact Bool.false_ne_true), ih hndt k]
        by_cases hkt : k ∈ t
        · rw [if_pos hkt, if_pos (List.mem_cons.mpr (Or.inr hkt))]
        · rw [if_neg hkt,
            if_neg (fun hh => (List.mem_cons.mp hh).elim (fun h => absurd h hkk) hkt)]

/-! ### Per-key behaviour of the merge -/

theorem mergeItem_eq_of_both {lm sm : List (String × Quote)} {k : String} {l s : Quote}
    (hl : mapGet lm k = some l) (hs : mapGet sm k = some s) :
    mergeItem lm sm k = if differsB l s = true
      then some { s with source := Source.server, updatedAt := max l.updatedAt s.updatedAt }
      else some { s with updatedAt := max l.updatedAt s.updatedAt, source := Source.server } := by
  unfold mergeItem
  rw [hl, hs]

theorem mergeItem_eq_of_server_only {lm sm : List (String × Quote)} {k : String} {s : Quote}
    (hl : mapGet lm k = none) (hs : mapGet sm k = some s) :
    mergeItem lm sm k = some { s with source := Source.server } := by
  unfold mergeItem
  rw [hl, hs]

theorem mergeItem_eq_of_local_only {lm sm : List (String × Quote)} {k : String} {l : Quote}
    (hl : mapGet lm k = some l) (hs : mapGet sm k = none) :
    mergeItem lm sm k = some l := by
  unfold mergeItem
  rw [hl, hs]

theorem mergeItem_eq_of_neither {lm sm : List (String × Quote)} {k : String}
    (hl : mapGet lm k = none) (hs : mapGet sm k = none) :
    mergeItem lm sm k = none := by
  unfold mergeItem
  rw [hl, hs]

theorem conflictAt_eq_of_both {lm sm : List (String × Quote)} {k : String} {l s : Quote}
    (hl : mapGet lm k = some l) (hs : mapGet sm k = some s) :
    conflictAt lm sm k = if differsB l s = true then some ⟨k, l, s⟩ else none := by
  unfold conflictAt
  rw [hl, hs]

theorem conflictAt_eq_of_not_both {lm sm : List (String × Quote)} {k : String}
    (h : mapGet lm k = none ∨ mapGet sm k = none) : conflictAt lm sm k = none := by
  unfold conflictAt
  cases hl : mapGet lm k with
  | none =>
    cases hs : mapGet sm k with
    | none => exact rfl
    | some s => exact rfl
  | some l =>
    cases hs : mapGet sm k with
    | none => exact rfl
    | some s =>
      rcases h with h | h
      · rw [hl] at h
        simp at h
      · rw [hs] at h
        simp at h

theorem keyOf_mergeItem {lm sm : List (String × Quote)}
    (hlm : ∀ p ∈ lm, keyOf p.2 = p.1) (hsm : ∀ p ∈ sm, keyOf p.2 = p.1) :
    ∀ k q, mergeItem lm sm k = some q → keyOf q = k := by
  intro k q h
  cases hl : mapGet lm k with
  | some l =>
    cases hs : mapGet sm k with
    | some s =>
      rw [mergeItem_eq_of_both hl hs, ite_self] at h
      have hq : _ = q := Option.some.inj h
      rw [← hq]
      exact hsm (k, s) (mapGet_some_mem hs)
    | none =>
      rw [mergeItem_eq_of_local_only hl hs] at h
      have hq : l = q := Option.some.inj h
      rw [← hq]
      exact hlm (k, l) (mapGet_some_mem hl)
  | none =>
    cases hs : mapGet sm k with
    | some s =>
      rw [mergeItem_eq_of_server_only hl hs] at h
      have hq : _ = q := Option.some.inj h
      rw [← hq]
      exact hsm (k, s) (mapGet_some_mem hs)
    | none =>
      rw [mergeItem_eq_of_neither hl hs] at h
      simp at h

theorem key_conflictAt {lm sm : List (String × Quote)} :
    ∀ k c, conflictAt lm sm k = some c → c.key = k := by
  intro k c h
  cases hl : mapGet lm k with
  | some l =>
    cases hs : mapGet sm k with
    | some s =>
      rw [conflictAt_eq_of_both hl hs] at h
      by_cases hd : differsB l s = true
      · rw [if_pos hd] at h
        cases h
        rfl
      · rw [if_neg hd] at h
        simp at h
    | none =>
      rw [conflictAt_eq_of_not_both (Or.inr hs)] at h
      simp at h
  | none =>
    rw [conflictAt_eq_of_not_both (Or.inl hl)] at h
    simp at h

theorem mergeItem_both {lm sm : List (String × Quote)} {k : String} {l s : Quote}
    (hl : mapGet lm k = some l) (hs : mapGet sm k = some s) :
    mergeItem lm sm k =
      some { s with updatedAt := max l.updatedAt s.updatedAt, source := Source.server } := by
  rw [mergeItem_eq_of_both hl hs, ite_self]

theorem differsB_eq_false_iff {l s : Quote} :
    differsB l s = false ↔
      normalize l.category = normalize s.category ∧ normalize l.text = normalize s.text := by
  simp [differsB]

theorem syncMerge_merged_filter (L R : List Quote) (k : String) :
    (syncMerge L R).1.filter (fun q => keyOf q == k) =
      if k ∈ allKeys (buildMap L) (buildMap R)
      then (mergeItem (buildMap L) (buildMap R) k).toList else [] := by
  have e : (syncMerge L R).1 =
      (allKeys (buildMap L) (buildMap R)).filterMap
        (mergeItem (buildMap L) (buildMap R)) := rfl
  rw [e]
  exact filterMap_filter_key _ keyOf
    (keyOf_mergeItem (buildMap_mem_key L) (buildMap_mem_key R))
    _ (allKeys_nodup (buildMap_keys_nodup L) (buildMap_keys_nodup R)) k

theorem syncMerge_conflicts_filter (L R : List Quote) (k : String) :
    (syncMerge L R).2.filter (fun c => c.key == k) =
      if k ∈ allKeys (buildMap L) (buildMap R)
      then (conflictAt (buildMap L) (buildMap R) k).toList else [] := by
  have e : (syncMerge L R).2 =
      (allKeys (buildMap L) (buildMap R)).filterMap
        (conflictAt (buildMap L) (buildMap R)) := rfl
  rw [e]
  exact filterMap_filter_key _ Conflict.key key_conflictAt
    _ (allKeys_nodup (buildMap_keys_nodup L) (buildMap_keys_nodup R)) k

/-- Shared core: for a key present in both maps, the merged list carries exactly
the server-based copy with the max timestamp, and the conflict list carries the
pair exactly when the items differ. -/
theorem merge_both_core (L R : List Quote) (k : String) (l s : Quote)
    (hl : mapGet (buildMap L) k = some l) (hs : mapGet (buildMap R) k = some s) :
    (syncMerge L R).1.filter (fun q => keyOf q == k) =
      [{ s with updatedAt := max l.updatedAt s.updatedAt, source := Source.server }] ∧
    (syncMerge L R).2.filter (fun c => c.key == k) =
      (if differsB l s = true then [(⟨k, l, s⟩ : Conflict)] else []) := by
  have hmem : k ∈ allKeys (buildMap L) (buildMap R) :=
    mem_allKeys_left (mem_keysOf_of_mapGet hl)
  constructor
  · rw [syncMerge_merged_filter, if_pos hmem, mergeItem_both hl hs]
    rfl
  · rw [syncMerge_conflicts_filter, if_pos hmem, conflictAt_eq_of_both hl hs]
    by_cases hd : differsB l s = true
    · rw [if_pos hd, if_pos hd]
      rfl
    · rw [if_neg hd, if_neg hd]
      rfl

/-- Every conflict produced by the merge came from a key present in both maps
with differing items. -/
theorem conflict_sound {L R : List Quote} {c : Conflict} (hc : c ∈ (syncMerge L R).2) :
    mapGet (buildMap L) c.key = some c.local_ ∧
    mapGet (buildMap R) c.key = some c.server ∧
    differsB c.local_ c.server = true := by
  have hc' : c ∈ (allKeys (buildMap L) (buildMap R)).filterMap
      (conflictAt (buildMap L) (buildMap R)) := hc
  obtain ⟨k, _, hck⟩ := List.mem_filterMap.mp hc'
  cases hl : mapGet (buildMap L) k with
  | some l =>
    cases hs : mapGet (buildMap R) k with
    | some s =>
      rw [conflictAt_eq_of_both hl hs] at hck
      by_cases hd : differsB l s = true
      · rw [if_pos hd] at hck
        cases hck
        exact ⟨hl, hs, hd⟩
      · rw [if_neg hd] at hck
        simp at hck
    | none =>
      rw [conflictAt_eq_of_not_both (Or.inr hs)] at hck
      simp at hck
  | none =>
    rw [conflictAt_eq_of_not_both (Or.inl hl)] at hck
    simp at hck

/-! ### `buildMap` on duplicate-free inputs -/

theorem foldl_mapSet_fresh :
    ∀ (L : List Quote) (m : List (String × Quote)),
      (keysOf m ++ L.map keyOf).Nodup →
      L.foldl (fun m q => mapSet m (keyOf q) q) m = m ++ L.map (fun q => (keyOf q, q)) := by
  intro L
  induction L with
  | nil => intro m _; simp
  | cons a t ih =>
    intro m h
    rw [List.map_cons, List.append_cons] at h
    have h1 : (keysOf m ++ [keyOf a]).Nodup := (List.nodup_append.mp h).1
    have hna : keyOf a ∉ keysOf m := by
      have hdis := (List.nodup_append.mp h1).2.2
      intro hmem
      exact hdis hmem (List.mem_singleton.mpr rfl)
    rw [List.foldl_cons]
    have hset : mapSet m (keyOf a) a = m ++ [(keyOf a, a)] := by
      unfold mapSet
      rw [if_neg (by rw [any_false_of_not_mem_keysOf hna]; exact Bool.false_ne_true)]
    have hkeys : keysOf (m ++ [(keyOf a, a)]) = keysOf m ++ [keyOf a] := by
      simp [keysOf]
    rw [hset, ih (m ++ [(keyOf a, a)]) (by rw [hkeys]; exact h)]
    simp

theorem buildMap_eq_of_nodup {L : List Quote} (h : (L.map keyOf).Nodup) :
    buildMap L = L.map (fun q => (keyOf q, q)) := by
  have := foldl_mapSet_fresh L [] (by simpa [keysOf] using h)
  simpa [buildMap] using this

theorem mapGet_cons (p : String × Quote) (m : List (String × Quote)) (k : String) :
    mapGet (p :: m) k = if p.1 == k then some p.2 else mapGet m k := by
  unfold mapGet
  rw [List.find?_cons]
  cases hb : p.1 == k with
  | true => simp
  | false => simp

theorem mapGet_pairs_of_nodup :
    ∀ L : List Quote, (L.map keyOf).Nodup → ∀ q ∈ L,
      mapGet (L.map (fun q => (keyOf q, q))) (keyOf q) = some q := by
  intro L
  induction L with
  | nil => intro _ q hq; simp at hq
  | cons a t ih =>
    intro hnd q hq
    rw [List.map_cons] at hnd
    rw [List.map_cons, mapGet_cons]
    rcases List.mem_cons.mp hq with rfl | hqt
    · simp
    · have hna : keyOf a ∉ t.map keyOf := (List.nodup_cons.mp hnd).1
      have hne : (keyOf a == keyOf q) = false := by
        rw [beq_eq_false_iff_ne]
        intro he
        exact hna (he ▸ List.mem_map_of_mem keyOf hqt)
      rw [if_neg (by simp [hne])]
      exact ih (List.nodup_cons.mp hnd).2 q hqt

theorem filterMap_eq_map_of_forall_some {α β : Type} {f : α → Option β} {g : α → β} :
    ∀ l : List α, (∀ a ∈ l, f a = some (g a)) → l.filterMap f = l.map g := by
  intro l
  induction l with
  | nil => intro _; rfl
  | cons a t ih =>
    intro h
    rw [List.filterMap_cons, h a (List.mem_cons_self a t), List.map_cons,
      ih (fun b hb => h b (List.mem_cons.mpr (Or.inr hb)))]

/-! ## Claim theorems for the merge engine -/

/-- C1: for every normalized-text key present in both sides' maps, the merged
list contains exactly one item for that key — the remote item's content with
`updatedAt = max(local.updatedAt, remote.updatedAt)` and origin remote — and a
conflict `{key, local, remote}` is recorded exactly when normalized text or
normalized category differ (with the same merged item either way). -/
theorem merge_key_in_both (L R : List Quote) (k : String) (l s : Quote)
    (hl : mapGet (buildMap L) k = some l) (hs : mapGet (buildMap R) k = some s) :
    (syncMerge L R).1.filter (fun q => keyOf q == k) =
      [{ s with updatedAt := max l.updatedAt s.updatedAt, source := Source.server }] ∧
    (if normalize l.text = normalize s.text ∧ normalize l.category = normalize s.category
     then (syncMerge L R).2.filter (fun c => c.key == k) = []
     else (syncMerge L R).2.filter (fun c => c.key == k) = [⟨k, l, s⟩]) := by
  obtain ⟨h1, h2⟩ := merge_both_core L R k l s hl hs
  refine ⟨h1, ?_⟩
  by_cases hsame : normalize l.text = normalize s.text ∧
      normalize l.category = normalize s.category
  · have hd : differsB l s = false := differsB_eq_false_iff.mpr ⟨hsame.2, hsame.1⟩
    rw [if_pos hsame, h2, if_neg (by rw [hd]; exact Bool.false_ne_true)]
  · have hd : differsB l s = true := by
      cases hdb : differsB l s
      · exact absurd (differsB_eq_false_iff.mp hdb) (fun hcc => hsame ⟨hcc.2, hcc.1⟩)
      · rfl
    rw [if_neg hsame, h2, if_pos hd]

/-- Witness for C1 at the spec's example: one conflict with key `"be kind"`, and
the sole merged item carries category `"Wisdom"`. -/
theorem merge_key_in_both_witness :
    (mapGet (buildMap [exLocal]) "be kind" = some exLocal ∧
     mapGet (buildMap [exRemote]) "be kind" = some exRemote) ∧
    ((syncMerge [exLocal] [exRemote]).1.filter (fun q => keyOf q == "be kind") =
      [({ exRemote with
          updatedAt := max exLocal.updatedAt exRemote.updatedAt,
          source := Source.server } : Quote)] ∧
     (if normalize exLocal.text = normalize exRemote.text ∧
         normalize exLocal.category = normalize exRemote.category
      then (syncMerge [exLocal] [exRemote]).2.filter (fun c => c.key == "be kind") = []
      else (syncMerge [exLocal] [exRemote]).2.filter (fun c => c.key == "be kind") =
        [⟨"be kind", exLocal, exRemote⟩])) ∧
    ((syncMerge [exLocal] [exRemote]).2 = [⟨"be kind", exLocal, exRemote⟩] ∧
     (syncMerge [exLocal] [exRemote]).1.map Quote.category = ["Wisdom"]) :=
  ⟨⟨by decide, by decide⟩,
   merge_key_in_both [exLocal] [exRemote] "be kind" exLocal exRemote (by decide) (by decide),
   by decide⟩

/-- C2 (amended): `merge(L, [])` returns exactly `L` with no conflicts for every
non-empty `L` whose items have pairwise distinct normalized-text keys; duplicate
keys within `L` collapse to the last occurrence. -/
theorem merge_with_empty_remote (L : List Quote) (_hne : L ≠ [])
    (hnd : (L.map keyOf).Nodup) : syncMerge L [] = (L, []) := by
  have hb : buildMap L = L.map (fun q => (keyOf q, q)) := buildMap_eq_of_nodup hnd
  have e : syncMerge L [] =
      ((allKeys (buildMap L) (buildMap [])).filterMap (mergeItem (buildMap L) (buildMap [])),
       (allKeys (buildMap L) (buildMap [])).filterMap
         (conflictAt (buildMap L) (buildMap []))) := rfl
  have hbe : buildMap ([] : List Quote) = [] := rfl
  rw [e, hbe]
  have hks : allKeys (buildMap L) [] = L.map keyOf := by
    unfold allKeys keysOf
    rw [hb, List.map_map]
    simp [Function.comp]
  rw [hks, Prod.mk.injEq]
  constructor
  · rw [List.filterMap_map]
    apply filterMap_eq_self_of_forall_some
    intro q hq
    show mergeItem (buildMap L) [] (keyOf q) = some q
    exact mergeItem_eq_of_local_only
      (by rw [hb]; exact mapGet_pairs_of_nodup L hnd q hq) rfl
  · rw [List.filterMap_map]
    apply filterMap_eq_nil_of_forall_none
    intro q _
    exact conflictAt_eq_of_not_both (Or.inr rfl)

/-- Witness for C2 (amended) on a one-item list. -/
theorem merge_with_empty_remote_witness :
    (([⟨"w1", "Stay curious", "Life", 3, Source.local_⟩] : List Quote) ≠ [] ∧
     (([⟨"w1", "Stay curious", "Life", 3, Source.local_⟩] : List Quote).map keyOf).Nodup) ∧
    syncMerge [⟨"w1", "Stay curious", "Life", 3, Source.local_⟩] [] =
      ([⟨"w1", "Stay curious", "Life", 3, Source.local_⟩], []) :=
  ⟨⟨by decide, by decide⟩, merge_with_empty_remote _ (by decide) (by decide)⟩

/-- Counterexample to C2 as stated: a non-empty local list with two items sharing
a normalized-text key does not come back unchanged — the two items collapse. -/
theorem merge_with_empty_remote_cex :
    (([⟨"a", "Hi", "X", 1, Source.local_⟩, ⟨"b", "hi", "Y", 2, Source.local_⟩] :
        List Quote) ≠ []) ∧
    syncMerge [⟨"a", "Hi", "X", 1, Source.local_⟩, ⟨"b", "hi", "Y", 2, Source.local_⟩] [] ≠
      ([⟨"a", "Hi", "X", 1, Source.local_⟩, ⟨"b", "hi", "Y", 2, Source.local_⟩], []) := by
  decide

/-- C3 (amended): `merge([], R)` returns the items of `R` each stamped origin
remote, with no conflicts, for every `R` whose items have pairwise distinct
normalized-text keys; duplicate keys within `R` collapse to the last occurrence. -/
theorem merge_with_empty_local (R : List Quote) (hnd : (R.map keyOf).Nodup) :
    syncMerge [] R = (R.map (fun q => { q with source := Source.server }), []) := by
  have hb : buildMap R = R.map (fun q => (keyOf q, q)) := buildMap_eq_of_nodup hnd
  have e : syncMerge [] R =
      ((allKeys (buildMap []) (buildMap R)).filterMap (mergeItem (buildMap []) (buildMap R)),
       (allKeys (buildMap []) (buildMap R)).filterMap
         (conflictAt (buildMap []) (buildMap R))) := rfl
  have hbe : buildMap ([] : List Quote) = [] := rfl
  rw [e, hbe]
  have hks : allKeys [] (buildMap R) = R.map keyOf := by
    unfold allKeys keysOf
    rw [hb, List.map_map]
    simp [Function.comp]
  rw [hks, Prod.mk.injEq]
  constructor
  · rw [List.filterMap_map]
    apply filterMap_eq_map_of_forall_some
    intro q hq
    show mergeItem [] (buildMap R) (keyOf q) = some { q with source := Source.server }
    exact mergeItem_eq_of_server_only rfl
      (by rw [hb]; exact mapGet_pairs_of_nodup R hnd q hq)
  · rw [List.filterMap_map]
    apply filterMap_eq_nil_of_forall_none
    intro q _
    exact conflictAt_eq_of_not_both (Or.inl rfl)

/-- Witness for C3 (amended) on a one-item list: the local-origin item comes back
stamped with origin remote. -/
theorem merge_with_empty_local_witness :
    (([⟨"r1", "Dream big", "Hope", 4, Source.local_⟩] : List Quote).map keyOf).Nodup ∧
    syncMerge [] [⟨"r1", "Dream big", "Hope", 4, Source.local_⟩] =
      (([⟨"r1", "Dream big", "Hope", 4, Source.local_⟩] : List Quote).map
        (fun q => { q with source := Source.server }), []) :=
  ⟨by decide, merge_with_empty_local _ (by decide)⟩

/-- Counterexample to C3 as stated: a remote list with two items sharing a
normalized-text key collapses, so the result is not all of `R` stamped remote. -/
theorem merge_with_empty_local_cex :
    syncMerge [] [⟨"a", "Hi", "X", 1, Source.server⟩, ⟨"b", "hi", "Y", 2, Source.server⟩] ≠
      (([⟨"a", "Hi", "X", 1, Source.server⟩, ⟨"b", "hi", "Y", 2, Source.server⟩] :
          List Quote).map (fun q => { q with source := Source.server }), []) := by
  decide

/-- C4: whenever the merge produces at least one conflict, the merged output is
not commutative — swapping the local and remote sides changes the merged list,
because the engine always keeps the second (remote) side's content on the
conflicting key. -/
theorem merge_not_commutative (L R : List Quote) (h : (syncMerge L R).2 ≠ []) :
    (syncMerge L R).1 ≠ (syncMerge R L).1 := by
  obtain ⟨c, hc⟩ := List.exists_mem_of_ne_nil _ h
  obtain ⟨hl, hs, hd⟩ := conflict_sound hc
  intro heq
  have hLR := (merge_both_core L R c.key c.local_ c.server hl hs).1
  have hRL := (merge_both_core R L c.key c.server c.local_ hs hl).1
  rw [heq] at hLR
  have hab := List.singleton_inj.mp (hLR.symm.trans hRL)
  have hcat0 := congrArg Quote.category hab
  have hcat : c.server.category = c.local_.category := hcat0
  have htext : normalize c.local_.text = normalize c.server.text :=
    (keyOf_of_mapGet hl).trans (keyOf_of_mapGet hs).symm
  have hfalse : differsB c.local_ c.server = false :=
    differsB_eq_false_iff.mpr ⟨by rw [hcat], htext⟩
  rw [hfalse] at hd
  exact Bool.false_ne_true hd

/-- Witness for C4 on a one-conflict pair of lists. -/
theorem merge_not_commutative_witness :
    (syncMerge [⟨"a", "Sun rises", "Sky", 1, Source.local_⟩]
        [⟨"b", "sun rises", "Star", 2, Source.server⟩]).2 ≠ [] ∧
    (syncMerge [⟨"a", "Sun rises", "Sky", 1, Source.local_⟩]
        [⟨"b", "sun rises", "Star", 2, Source.server⟩]).1 ≠
      (syncMerge [⟨"b", "sun rises", "Star", 2, Source.server⟩]
        [⟨"a", "Sun rises", "Sky", 1, Source.local_⟩]).1 :=
  ⟨by decide, merge_not_commutative _ _ (by decide)⟩

/-- C10: every conflict produced by the merge relates items with equal normalized
texts — the merge identity key is the normalized text itself, so conflicts can
only arise from differing normalized categories. -/
theorem conflict_texts_equal (L R : List Quote) (c : Conflict)
    (hc : c ∈ (syncMerge L R).2) :
    normalize c.local_.text = normalize c.server.text := by
  obtain ⟨hl, hs, _⟩ := conflict_sound hc
  exact (keyOf_of_mapGet hl).trans (keyOf_of_mapGet hs).symm

theorem tryTransformed_all_none :
    ∀ attempts : List (Option (List Quote)),
      (∀ a ∈ attempts, attemptYield a = none) → tryTransformed attempts = none := by
  intro attempts
  induction attempts with
  | nil => intro _; rfl
  | cons a rest ih =>
    intro h
    show (match attemptYield a with
      | some qs => some qs
      | none => tryTransformed rest) = none
    rw [h a (List.mem_cons_self a rest)]
    exact ih (fun p hp => h p (List.mem_cons.mpr (Or.inr hp)))

theorem tryTransformed_first_success :
    ∀ (pre : List (Option (List Quote))) (att : Option (List Quote))
      (rest : List (Option (List Quote))) (qs : List Quote),
      (∀ p ∈ pre, attemptYield p = none) → attemptYield att = some qs →
      tryTransformed (pre ++ att :: rest) = some qs := by
  intro pre
  induction pre with
  | nil =>
    intro att rest qs _ hy
    rw [List.nil_append]
    show (match attemptYield att with
      | some qs => some qs
      | none => tryTransformed rest) = some qs
    rw [hy]
  | cons p pre ih =>
    intro att rest qs hall hy
    rw [List.cons_append]
    show (match attemptYield p with
      | some qs => some qs
      | none => tryTransformed (pre ++ att :: rest)) = some qs
    rw [hall p (List.mem_cons_self p pre)]
    exact ih att rest qs (fun x hx => hall x (List.mem_cons.mpr (Or.inr hx))) hy

theorem attemptYield_some {att : Option (List Quote)} {qs : List Quote}
    (h : attemptYield att = some qs) : qs ≠ [] ∧ ∀ q ∈ qs, q.text ≠ "" := by
  cases att with
  | none => exact absurd h (by simp [attemptYield])
  | some data =>
    have h' : (if ((data.filter (fun q => q.text != "")).length != 0) = true
        then some (data.filter (fun q => q.text != ""))
        else none) = some qs := h
    by_cases hlen : ((data.filter (fun q => q.text != "")).length != 0) = true
    · rw [if_pos hlen] at h'
      have hq : data.filter (fun q => q.text != "") = qs := Option.some.inj h'
      constructor
      · intro hnil
        rw [hq, hnil] at hlen
        simp at hlen
      · intro q hqmem
        rw [← hq] at hqmem
        have := List.of_mem_filter hqmem
        simpa using this
    · rw [if_neg hlen] at h'
      simp at h'

/-- C6: the pull chain returns the first source attempt that yields a non-empty
list of transformed items with non-empty text; when every source fails to yield,
it returns the stamped persisted fallback snapshot (or the fixed default seed),
so the pull always terminates normally with a list. -/
theorem fetch_first_success_or_fallback (attempts : List (Option (List Quote)))
    (storedServerData : Option (List SeedQuote)) (t : Nat) :
    ((∀ a ∈ attempts, attemptYield a = none) →
      fetchQuotesFromServer attempts storedServerData t =
        fallbackQuotes (storedServerData.getD serverQuoteData) t) ∧
    (∀ (pre : List (Option (List Quote))) (att : Option (List Quote))
        (rest : List (Option (List Quote))) (qs : List Quote),
      attempts = pre ++ att :: rest → (∀ p ∈ pre, attemptYield p = none) →
      attemptYield att = some qs →
      fetchQuotesFromServer attempts storedServerData t = qs ∧
        qs ≠ [] ∧ ∀ q ∈ qs, q.text ≠ "") := by
  constructor
  · intro hall
    unfold fetchQuotesFromServer
    rw [tryTransformed_all_none attempts hall]
    cases storedServerData with
    | some base => rfl
    | none => rfl
  · intro pre att rest qs heq hall hy
    refine ⟨?_, attemptYield_some hy⟩
    unfold fetchQuotesFromServer
    rw [heq, tryTransformed_first_success pre att rest qs hall hy]

/-- Witness for C6: the fallback path with every source failing, and the
first-success path with a failing source followed by a succeeding one. -/
theorem fetch_first_success_or_fallback_witness :
    fetchQuotesFromServer [none, none] none 7 = fallbackQuotes serverQuoteData 7 ∧
    fetchQuotesFromServer [none, some [⟨"s2", "Hello", "Server", 3, Source.server⟩]] none 7 =
      [⟨"s2", "Hello", "Server", 3, Source.server⟩] :=
  ⟨(fetch_first_success_or_fallback [none, none] none 7).1 (by decide),
   ((fetch_first_success_or_fallback
      [none, some [⟨"s2", "Hello", "Server", 3, Source.server⟩]] none 7).2
      [none] (some [⟨"s2", "Hello", "Server", 3, Source.server⟩]) []
      [⟨"s2", "Hello", "Server", 3, Source.server⟩] rfl (by decide) (by decide)).1⟩

theorem importKey_shape (gen : Nat → String) (t i : Nat) (r : JsonRec) :
    importKey (importShape gen t i r) = recKey r := rfl

theorem mem_shapeAll {gen : Nat → String} {t : Nat} :
    ∀ (rs : List JsonRec) (i : Nat) (q : Quote),
      q ∈ shapeAll gen t i rs → ∃ j r, r ∈ rs ∧ q = importShape gen t j r := by
  intro rs
  induction rs with
  | nil => intro i q hq; simp [shapeAll] at hq
  | cons r rest ih =>
    intro i q hq
    rw [show shapeAll gen t i (r :: rest) =
      importShape gen t i r :: shapeAll gen t (i + 1) rest from rfl] at hq
    rcases List.mem_cons.mp hq with h | h
    · exact ⟨i, r, List.mem_cons_self r rest, h⟩
    · obtain ⟨j, r', hr', he⟩ := ih (i + 1) q h
      exact ⟨j, r', List.mem_cons.mpr (Or.inr hr'), he⟩

/-- C7: an import whose (kept) records all carry keys already in the store leaves
the store unchanged; an import of exactly one new-keyed record and one
duplicate-keyed record grows the store by exactly one, in either order. -/
theorem import_dedup (gen : Nat → String) (t : Nat) (current : List Quote) :
    (∀ imported : List JsonRec,
      (∀ r ∈ imported, importKeep r = true → recKey r ∈ current.map importKey) →
      importQuotes gen t current imported = current) ∧
    (∀ a b : JsonRec, importKeep a = true → importKeep b = true →
      recKey a ∉ current.map importKey → recKey b ∈ current.map importKey →
      (importQuotes gen t current [a, b]).length = current.length + 1 ∧
      (importQuotes gen t current [b, a]).length = current.length + 1) := by
  constructor
  · intro imported hall
    have hclean : (shapeAll gen t 0 (imported.filter importKeep)).filter
        (fun q => !(current.map importKey).contains (importKey q)) = [] := by
      rw [List.filter_eq_nil_iff]
      intro q hq
      obtain ⟨j, r, hr, he⟩ := mem_shapeAll _ 0 q hq
      have hkeep : importKeep r = true := List.of_mem_filter hr
      have hrin : r ∈ imported := List.mem_of_mem_filter hr
      have hkey : recKey r ∈ current.map importKey := hall r hrin hkeep
      rw [he, importKey_shape, contains_true_of_mem hkey]
      simp
    simp only [importQuotes]
    rw [hclean]
    rfl
  · intro a b ha hb hnew hdup
    have hconta0 : ((current.map importKey).contains
        (importKey (importShape gen t 0 a))) = false := by
      rw [importKey_shape]
      exact contains_false_of_not_mem hnew
    have hconta1 : ((current.map importKey).contains
        (importKey (importShape gen t 1 a))) = false := by
      rw [importKey_shape]
      exact contains_false_of_not_mem hnew
    have hcontb0 : ((current.map importKey).contains
        (importKey (importShape gen t 0 b))) = true := by
      rw [importKey_shape]
      exact contains_true_of_mem hdup
    have hcontb1 : ((current.map importKey).contains
        (importKey (importShape gen t 1 b))) = true := by
      rw [importKey_shape]
      exact contains_true_of_mem hdup
    have hfab : ([a, b] : List JsonRec).filter importKeep = [a, b] := by
      rw [List.filter_eq_self]
      intro r hr
      rcases List.mem_cons.mp hr with rfl | hr'
      · exact ha
      · rw [List.mem_singleton.mp hr']
        exact hb
    have hfba : ([b, a] : List JsonRec).filter importKeep = [b, a] := by
      rw [List.filter_eq_self]
      intro r hr
      rcases List.mem_cons.mp hr with rfl | hr'
      · exact hb
      · rw [List.mem_singleton.mp hr']
        exact ha
    constructor
    · have hcleaned : (shapeAll gen t 0 (([a, b] : List JsonRec).filter importKeep)).filter
          (fun q => !(current.map importKey).contains (importKey q)) =
          [importShape gen t 0 a] := by
        rw [hfab]
        rw [show shapeAll gen t 0 [a, b] =
          [importShape gen t 0 a, importShape gen t 1 b] from rfl]
        rw [List.filter_cons, List.filter_cons, List.filter_nil, hconta0, hcontb1]
        rfl
      simp only [importQuotes]
      rw [hcleaned]
      rw [if_neg (by simp)]
      simp
    · have hcleaned : (shapeAll gen t 0 (([b, a] : List JsonRec).filter importKeep)).filter
          (fun q => !(current.map importKey).contains (importKey q)) =
          [importShape gen t 1 a] := by
        rw [hfba]
        rw [show shapeAll gen t 0 [b, a] =
          [importShape gen t 0 b, importShape gen t 1 a] from rfl]
        rw [List.filter_cons, List.filter_cons, List.filter_nil, hcontb0, hconta1]
        rfl
      simp only [importQuotes]
      rw [hcleaned]
      rw [if_neg (by simp)]
      simp

/-- Witness for C7: a one-duplicate import changes nothing; a one-new-plus-one-
duplicate import grows the store by one. -/
theorem import_dedup_witness :
    importQuotes (fun i => "gen" ++ toString i) 9
      [⟨"c1", "Old quote", "Life", 1, Source.local_⟩]
      [⟨some "i2", some "Old quote", some "Life", some 3, some "local"⟩] =
      [⟨"c1", "Old quote", "Life", 1, Source.local_⟩] ∧
    (importQuotes (fun i => "gen" ++ toString i) 9
      [⟨"c1", "Old quote", "Life", 1, Source.local_⟩]
      [⟨some "i1", some "New quote", some "Fun", some 2, some "local"⟩,
       ⟨some "i2", some "Old quote", some "Life", some 3, some "local"⟩]).length =
      ([⟨"c1", "Old quote", "Life", 1, Source.local_⟩] : List Quote).length + 1 :=
  ⟨(import_dedup (fun i => "gen" ++ toString i) 9
      [⟨"c1", "Old quote", "Life", 1, Source.local_⟩]).1
      [⟨some "i2", some "Old quote", some "Life", some 3, some "local"⟩] (by decide),
   ((import_dedup (fun i => "gen" ++ toString i) 9
      [⟨"c1", "Old quote", "Life", 1, Source.local_⟩]).2
      ⟨some "i1", some "New quote", some "Fun", some 2, some "local"⟩
      ⟨some "i2", some "Old quote", some "Life", some 3, some "local"⟩
      (by decide) (by decide) (by decide) (by decide)).1⟩

theorem importShape_export (gen : Nat → String) (t i : Nat) (q : Quote)
    (hid : q.id ≠ "") (hcat : q.category ≠ "") (hupd : q.updatedAt ≠ 0) :
    importShape gen t i ⟨some q.id, some q.text, some q.category, some q.updatedAt,
      some (match q.source with | Source.server => "server" | Source.local_ => "local")⟩ = q := by
  obtain ⟨qid, qtext, qcat, qupd, qsrc⟩ := q
  simp only at hid hcat hupd
  cases qsrc with
  | server =>
    simp [importShape, idDefault, categoryDefault, updatedAtDefault, sourceDefault,
      bne_iff_ne, hid, hcat, hupd]
  | local_ =>
    simp [importShape, idDefault, categoryDefault, updatedAtDefault, sourceDefault,
      bne_iff_ne, hid, hcat, hupd]

theorem shapeAll_export {gen : Nat → String} {t : Nat} :
    ∀ (C : List Quote) (i : Nat),
      (∀ q ∈ C, q.id ≠ "" ∧ q.category ≠ "" ∧ q.updatedAt ≠ 0) →
      shapeAll gen t i (exportQuotesToJson C) = C := by
  intro C
  induction C with
  | nil => intro i _; rfl
  | cons q rest ih =>
    intro i hinv
    have hq := hinv q (List.mem_cons_self q rest)
    rw [show exportQuotesToJson (q :: rest) =
      (⟨some q.id, some q.text, some q.category, some q.updatedAt,
        some (match q.source with
          | Source.server => "server"
          | Source.local_ => "local")⟩ : JsonRec) :: exportQuotesToJson rest from rfl]
    rw [show ∀ (r : JsonRec) (rs : List JsonRec), shapeAll gen t i (r :: rs) =
      importShape gen t i r :: shapeAll gen t (i + 1) rs from fun _ _ => rfl]
    rw [ih (i + 1) (fun p hp => hinv p (List.mem_cons.mpr (Or.inr hp)))]
    rw [importShape_export gen t i q hq.1 hq.2.1 hq.2.2]

/-- C8 (amended): export followed by import into an empty store reproduces the
collection exactly, provided each item has non-blank trimmed text, a non-empty
id, a non-empty category and a non-zero updatedAt; falsy fields are re-defaulted
by the import shaping, so the stated text-only invariant is not enough. -/
theorem export_import_roundtrip (gen : Nat → String) (t : Nat) (C : List Quote)
    (hinv : ∀ q ∈ C, jsTrim q.text ≠ "" ∧ q.id ≠ "" ∧ q.category ≠ "" ∧ q.updatedAt ≠ 0) :
    importQuotes gen t [] (exportQuotesToJson C) = C := by
  have hkeep : (exportQuotesToJson C).filter importKeep = exportQuotesToJson C := by
    rw [List.filter_eq_self]
    intro r hr
    obtain ⟨q, hq, he⟩ := List.mem_map.mp hr
    rw [← he]
    show importKeep _ = true
    simp [importKeep, bne_iff_ne, (hinv q hq).1]
  simp only [importQuotes, hkeep]
  rw [shapeAll_export C 0 (fun q hq =>
    ⟨(hinv q hq).2.1, (hinv q hq).2.2.1, (hinv q hq).2.2.2⟩)]
  have hfil : C.filter
      (fun q => !(([] : List Quote).map importKey).contains (importKey q)) = C := by
    rw [List.filter_eq_self]
    intro q _
    rfl
  rw [hfil]
  cases C with
  | nil => rfl
  | cons q rest => rfl

/-- Witness for C8 (amended) on a one-item collection. -/
theorem export_import_roundtrip_witness :
    (∀ q ∈ ([⟨"rt1", "Carpe diem", "Latin", 4, Source.server⟩] : List Quote),
      jsTrim q.text ≠ "" ∧ q.id ≠ "" ∧ q.category ≠ "" ∧ q.updatedAt ≠ 0) ∧
    importQuotes (fun _ => "g") 11 []
      (exportQuotesToJson [⟨"rt1", "Carpe diem", "Latin", 4, Source.server⟩]) =
      [⟨"rt1", "Carpe diem", "Latin", 4, Source.server⟩] :=
  ⟨by decide, export_import_roundtrip (fun _ => "g") 11
    [⟨"rt1", "Carpe diem", "Latin", 4, Source.server⟩] (by decide)⟩

/-- Counterexample to C8 as stated: an item with an empty category satisfies the
claimed invariant (non-empty trimmed text) but comes back with category
"General" after an export/import round trip into an empty store. -/
theorem export_import_roundtrip_cex :
    (∀ q ∈ ([⟨"a", "hi", "", 5, Source.local_⟩] : List Quote), jsTrim q.text ≠ "") ∧
    importQuotes (fun _ => "fresh") 7 []
      (exportQuotesToJson [⟨"a", "hi", "", 5, Source.local_⟩]) ≠
      [⟨"a", "hi", "", 5, Source.local_⟩] := by
  constructor
  · decide
  · decide

/-- C9: `loadQuotes` is total and fails soft — an absent key or unparsable value
yields the default seed, a parse to an empty array is reseeded too, and the
result is always a non-empty collection. -/
theorem load_never_fails (gen : Nat → String) (t : Nat)
    (stored : Option (Option (List JsonRec))) :
    ((stored = none ∨ stored = some none) → loadQuotes gen t stored = defaultQuotes gen t) ∧
    loadQuotes gen t (some (some [])) = defaultQuotes gen t ∧
    loadQuotes gen t stored ≠ [] := by
  refine ⟨?_, rfl, ?_⟩
  · intro h
    rcases h with rfl | rfl
    · rfl
    · rfl
  · simp only [loadQuotes]
    by_cases hc : (((match stored with
      | none => ([] : List Quote)
      | some none => []
      | some (some recs) => shapeAll gen t 0 recs)).length == 0) = true
    · rw [if_pos hc]
      simp [defaultQuotes]
    · rw [if_neg hc]
      intro hnil
      rw [hnil] at hc
      exact hc rfl

/-- Witness for C9 at an absent persisted value. -/
theorem load_never_fails_witness :
    loadQuotes (fun _ => "d") 3 none = defaultQuotes (fun _ => "d") 3 ∧
    loadQuotes (fun _ => "d") 3 none ≠ [] :=
  ⟨(load_never_fails (fun _ => "d") 3 none).1 (Or.inl rfl),
   (load_never_fails (fun _ => "d") 3 none).2.2⟩

/-- Witness for C10 on a concrete conflict. -/
theorem conflict_texts_equal_witness :
    (⟨"moonlight", ⟨"a", "Moonlight", "Night", 1, Source.local_⟩,
        ⟨"b", "moonlight", "Poetry", 2, Source.server⟩⟩ : Conflict) ∈
      (syncMerge [⟨"a", "Moonlight", "Night", 1, Source.local_⟩]
        [⟨"b", "moonlight", "Poetry", 2, Source.server⟩]).2 ∧
    normalize (Quote.mk "a" "Moonlight" "Night" 1 Source.local_).text =
      normalize (Quote.mk "b" "moonlight" "Poetry" 2 Source.server).text :=
  ⟨by decide,
   conflict_texts_equal [⟨"a", "Moonlight", "Night", 1, Source.local_⟩]
     [⟨"b", "moonlight", "Poetry", 2, Source.server⟩]
     ⟨"moonlight", ⟨"a", "Moonlight", "Night", 1, Source.local_⟩,
       ⟨"b", "moonlight", "Poetry", 2, Source.server⟩⟩ (by decide)⟩

end QuoteApp

